import Mathlib

/-!
# Verification development for the goscrobble repository

Shallow embedding of the parts of the goscrobble source relevant to the
frozen claims: the CSV history sink (sink_csv.go), the last.fm sink
(sink_lastfm.go), regex-rule parsing (config.go), and the playback
tracker described in the specification (the tracker source and the
Scrobble model file are not part of the provided sources; those pieces
are modelled from the spec, and are marked as such in their doc
comments).

Text is represented as `List Char`; Go `time.Time` values are Unix
seconds (`Int`); Go `time.Duration` values are nanoseconds (`Int`).
-/

/-! ## Line codec

Modelled from the spec: the Scrobble model file (with `ToStringSlice`
and `ScrobbleFromCSV`) is not among the provided sources.  The spec
requires that each record be one line in a flat text table, in a fixed
field order, "using an encoding from which the exact original values
(including Unicode artist names) can be recovered byte-for-byte".  We
model this with an escape-based codec: inside a field, the backslash is
escaped as a double backslash and the separator as a backslash followed
by the letter s; fields are joined with the separator.  This plays the
role of the CSV layer (one line per record) and of the artist-list join
(a second separator inside the artist field). -/

/-- Escape one character of a field: backslash doubles, the separator
becomes a backslash followed by the letter s, anything else is kept. -/
def escChar (sep : Char) (c : Char) : List Char :=
  if c = '\\' then ['\\', '\\']
  else if c = sep then ['\\', 's']
  else [c]

/-- Escape a whole field. -/
def escField (sep : Char) : List Char → List Char
  | [] => []
  | c :: rest => escChar sep c ++ escField sep rest

/-- Join escaped fields with the separator (the encoding of one line). -/
def encJoin (sep : Char) : List (List Char) → List Char
  | [] => []
  | [f] => escField sep f
  | f :: g :: gs => escField sep f ++ sep :: encJoin sep (g :: gs)

/-- Split an encoded line back into fields, undoing the escapes.
Returns `none` on a malformed line (a dangling backslash or an unknown
escape). -/
def decSplit (sep : Char) : List Char → List Char → Option (List (List Char))
  | [], acc => some [acc.reverse]
  | c :: rest, acc =>
    if c = '\\' then
      match rest with
      | [] => none
      | c2 :: rest2 =>
        if c2 = '\\' ∨ c2 = 's' then
          decSplit sep rest2 ((if c2 = 's' then sep else '\\') :: acc)
        else none
    else if c = sep then
      (decSplit sep rest []).map (fun fs => acc.reverse :: fs)
    else decSplit sep rest (c :: acc)

theorem decSplit_bs (sep : Char) (c2 : Char) (l acc : List Char)
    (h : c2 = '\\' ∨ c2 = 's') :
    decSplit sep ('\\' :: c2 :: l) acc
      = decSplit sep l ((if c2 = 's' then sep else '\\') :: acc) := by
  rw [decSplit.eq_def]
  simp [h]

theorem decSplit_sep (sep : Char) (hsep : sep ≠ '\\') (l acc : List Char) :
    decSplit sep (sep :: l) acc
      = (decSplit sep l []).map (fun fs => acc.reverse :: fs) := by
  rw [decSplit.eq_def]
  simp [hsep]

theorem decSplit_plain (sep : Char) (c : Char) (hc : c ≠ '\\') (hs : c ≠ sep)
    (l acc : List Char) :
    decSplit sep (c :: l) acc = decSplit sep l (c :: acc) := by
  rw [decSplit.eq_def]
  simp [hc, hs]

theorem decSplit_escField (sep : Char) (hsep : sep ≠ '\\') (f : List Char) :
    ∀ (rest acc : List Char),
      decSplit sep (escField sep f ++ rest) acc
        = decSplit sep rest (f.reverse ++ acc) := by
  induction f with
  | nil => intro rest acc; simp [escField]
  | cons c f ih =>
    intro rest acc
    by_cases hc : c = '\\'
    · subst hc
      have h1 : escField sep ('\\' :: f) ++ rest
          = '\\' :: '\\' :: (escField sep f ++ rest) := by
        simp [escField, escChar]
      rw [h1, decSplit_bs sep '\\' _ _ (Or.inl rfl)]
      rw [show (if ('\\' : Char) = 's' then sep else '\\') = '\\' from by simp]
      rw [ih]
      simp
    · by_cases hs : c = sep
      · have h1 : escField sep (c :: f) ++ rest
            = '\\' :: 's' :: (escField sep f ++ rest) := by
          simp [escField, escChar, hc, hs, hsep]
        rw [h1, decSplit_bs sep 's' _ _ (Or.inr rfl)]
        simp only [if_pos rfl, ih]
        rw [hs]
        simp
      · have h1 : escField sep (c :: f) ++ rest
            = c :: (escField sep f ++ rest) := by
          simp [escField, escChar, hc, hs]
        rw [h1, decSplit_plain sep c hc hs, ih]
        simp

/-- Round trip of the line codec: splitting the join of a non-empty list
of fields recovers exactly the fields. -/
theorem decSplit_encJoin (sep : Char) (hsep : sep ≠ '\\') :
    ∀ (f : List Char) (fs : List (List Char)),
      decSplit sep (encJoin sep (f :: fs)) [] = some (f :: fs) := by
  intro f fs
  induction fs generalizing f with
  | nil =>
    have h := decSplit_escField sep hsep f [] []
    simp only [List.append_nil] at h
    simp [encJoin, h, decSplit]
  | cons g gs ih =>
    have h := decSplit_escField sep hsep f (sep :: encJoin sep (g :: gs)) []
    simp only [encJoin] at h ⊢
    rw [h, decSplit_sep sep hsep, ih g]
    simp

/-- A successful split always yields at least one field. -/
theorem decSplit_ne_nil (sep : Char) :
    ∀ (l acc : List Char) (fs : List (List Char)),
      decSplit sep l acc = some fs → fs ≠ [] := by
  intro l acc
  induction l, acc using decSplit.induct sep with
  | case1 acc =>
    intro fs h
    simp only [decSplit] at h
    cases h; simp
  | case2 acc =>
    intro fs h
    rw [decSplit.eq_def] at h
    simp at h
  | case3 acc c2 rest2 h2 ih =>
    intro fs h
    rw [decSplit_bs sep c2 _ _ h2] at h
    exact ih fs h
  | case4 acc c2 rest2 h2 =>
    intro fs h
    rw [decSplit.eq_def] at h
    simp [h2] at h
  | case5 rest acc hsep ih =>
    intro fs h
    rw [decSplit_sep sep hsep] at h
    rcases Option.map_eq_some'.mp h with ⟨fs', _, rfl⟩
    simp
  | case6 c rest acc hc hs ih =>
    intro fs h
    rw [decSplit_plain sep c hc hs] at h
    exact ih fs h

/-! ## Decimal codec for durations and timestamps

Modelled from the spec: the textual form of the numeric fields of a
record line.  Big-endian decimal digits, with a leading minus sign for
negative values; the parser rejects anything that is not a decimal
numeral. -/

def natCharsRev : Nat → Nat → List Char
  | 0, _ => []
  | fuel+1, n => if n = 0 then [] else Nat.digitChar (n % 10) :: natCharsRev fuel (n / 10)

def natChars (n : Nat) : List Char := if n = 0 then ['0'] else (natCharsRev n n).reverse

def charDigit? (c : Char) : Option Nat :=
  if 48 ≤ c.toNat ∧ c.toNat ≤ 57 then some (c.toNat - 48) else none

def parseStep (acc : Option Nat) (c : Char) : Option Nat :=
  acc.bind fun a => (charDigit? c).map fun d => a * 10 + d

def parseNat (cs : List Char) : Option Nat :=
  if cs = [] then none else cs.foldl parseStep (some 0)

def intChars (n : Int) : List Char :=
  if n < 0 then '-' :: natChars n.natAbs else natChars n.natAbs

def parseInt (cs : List Char) : Option Int :=
  if cs.head? = some '-' then
    match parseNat cs.tail with
    | some m => some (-(m : Int))
    | none => none
  else
    match parseNat cs with
    | some m => some ((m : Int))
    | none => none

theorem charDigit?_digitChar (d : Nat) (h : d < 10) :
    charDigit? (Nat.digitChar d) = some d := by
  interval_cases d <;> rfl

theorem foldr_parse_natCharsRev :
    ∀ (fuel n a : Nat), n ≤ fuel →
      (natCharsRev fuel n).foldr (fun c acc => parseStep acc c) (some a)
        = some (a * 10 ^ (natCharsRev fuel n).length + n) := by
  intro fuel
  induction fuel with
  | zero =>
    intro n a h
    interval_cases n
    simp [natCharsRev]
  | succ fuel ih =>
    intro n a h
    by_cases hn : n = 0
    · subst hn; simp [natCharsRev]
    · have hlt : n / 10 ≤ fuel := by
        have := Nat.div_lt_self (Nat.pos_of_ne_zero hn) (by norm_num : 1 < 10)
        omega
      simp only [natCharsRev, if_neg hn, List.foldr_cons, List.length_cons]
      rw [ih (n / 10) a hlt]
      simp only [parseStep, Option.some_bind,
        charDigit?_digitChar (n % 10) (Nat.mod_lt n (by norm_num)), Option.map_some']
      congr 1
      have key : ∀ Q : Nat, (Q + n / 10) * 10 + n % 10 = Q * 10 + n := by omega
      rw [key]
      ring

theorem natCharsRev_digits :
    ∀ (fuel n : Nat) (c : Char), c ∈ natCharsRev fuel n →
      ∃ d, d < 10 ∧ c = Nat.digitChar d := by
  intro fuel
  induction fuel with
  | zero => intro n c hc; simp [natCharsRev] at hc
  | succ fuel ih =>
    intro n c hc
    by_cases hn : n = 0
    · rw [hn] at hc; simp [natCharsRev] at hc
    · simp only [natCharsRev, if_neg hn, List.mem_cons] at hc
      rcases hc with rfl | hc
      · exact ⟨n % 10, Nat.mod_lt n (by norm_num), rfl⟩
      · exact ih _ _ hc

theorem digitChar_ne_minus (d : Nat) (h : d < 10) : Nat.digitChar d ≠ '-' := by
  interval_cases d <;> decide

theorem natChars_ne_nil (n : Nat) : natChars n ≠ [] := by
  by_cases hn : n = 0
  · subst hn; simp [natChars]
  · simp only [natChars, if_neg hn]
    cases n with
    | zero => exact absurd rfl hn
    | succ m => simp [natCharsRev]

theorem natChars_mem_ne_minus (n : Nat) : ∀ c ∈ natChars n, c ≠ '-' := by
  by_cases hn : n = 0
  · subst hn; intro c hc; simp [natChars] at hc; subst hc; decide
  · intro c hc
    simp only [natChars, if_neg hn, List.mem_reverse] at hc
    rcases natCharsRev_digits n n c hc with ⟨d, hd, rfl⟩
    exact digitChar_ne_minus d hd

theorem parseNat_natChars (n : Nat) : parseNat (natChars n) = some n := by
  by_cases hn : n = 0
  · subst hn; rfl
  · have hne : natChars n ≠ [] := natChars_ne_nil n
    rw [parseNat, if_neg hne]
    simp only [natChars, if_neg hn]
    rw [List.foldl_reverse]
    rw [foldr_parse_natCharsRev n n 0 le_rfl]
    simp

theorem head?_natChars_ne_minus (n : Nat) : (natChars n).head? ≠ some '-' := by
  intro h
  have hmem : '-' ∈ natChars n := List.mem_of_mem_head? (Option.mem_def.mpr h)
  exact natChars_mem_ne_minus n '-' hmem rfl

theorem parseInt_intChars (n : Int) : parseInt (intChars n) = some n := by
  by_cases hn : n < 0
  · simp only [intChars, if_pos hn, parseInt, List.head?_cons, List.tail_cons,
      parseNat_natChars]
    simp only [if_true]
    have : -((n.natAbs : Nat) : Int) = n := by omega
    exact congrArg some this
  · simp only [intChars, if_neg hn, parseInt, parseNat_natChars]
    rw [if_neg (head?_natChars_ne_minus n.natAbs)]
    have : ((n.natAbs : Nat) : Int) = n := by omega
    exact congrArg some this

/-! ## Scrobble model

The record type from the Scrobble model file (not among the provided
sources; field names and shape from its uses in sink_csv.go,
sink_lastfm.go and main.go).  `ToStringSlice` and `ScrobbleFromCSV` are
modelled from the spec: one line per record, fixed field order (joined
artist list, track, album, duration, timestamp), byte-for-byte
recoverable. -/

structure Scrobble where
  Artists : List (List Char)
  Track : List Char
  Album : List Char
  Duration : Int
  Timestamp : Int
deriving DecidableEq

/-- Modelled from the spec: the five textual fields of a record line, in
the fixed order joined-artist-list, track, album, duration, timestamp. -/
def ToStringSlice (s : Scrobble) : List (List Char) :=
  [encJoin ';' s.Artists, s.Track, s.Album, intChars s.Duration, intChars s.Timestamp]

/-- Modelled from the spec: rebuild a record from the five fields of a
line; fails on a wrong field count or a non-numeric numeric field. -/
def fieldsToScrobble (fields : List (List Char)) : Option Scrobble :=
  match fields with
  | [a, t, al, d, ts] =>
    match decSplit ';' a [], parseInt d, parseInt ts with
    | some artists, some dv, some tv => some ⟨artists, t, al, dv, tv⟩
    | _, _, _ => none
  | _ => none

/-- Modelled from the spec: decode one line of the history file. -/
def ScrobbleFromCSV (line : List Char) : Option Scrobble :=
  match decSplit ',' line [] with
  | some fields => fieldsToScrobble fields
  | none => none

/-- The encoded line of one record (the CSV-writer layer). -/
def scrobbleLine (s : Scrobble) : List Char :=
  encJoin ',' (ToStringSlice s)

/-- Re-encode a list of raw rows, one line each (csv.WriteAll). -/
def writeAllLines (rows : List (List (List Char))) : List (List Char) :=
  rows.map (encJoin ',')

/-- Decoding the encoded line of a record with at least one artist
recovers the record exactly. -/
theorem ScrobbleFromCSV_scrobbleLine (s : Scrobble) (h : s.Artists ≠ []) :
    ScrobbleFromCSV (scrobbleLine s) = some s := by
  obtain ⟨a0, arest, hart⟩ : ∃ a0 arest, s.Artists = a0 :: arest := by
    cases hA : s.Artists with
    | nil => exact absurd hA h
    | cons a0 arest => exact ⟨a0, arest, rfl⟩
  rw [ScrobbleFromCSV, scrobbleLine, ToStringSlice,
    decSplit_encJoin ',' (by decide)]
  show fieldsToScrobble
      [encJoin ';' s.Artists, s.Track, s.Album, intChars s.Duration, intChars s.Timestamp]
    = some s
  rw [fieldsToScrobble]
  rw [hart, decSplit_encJoin ';' (by decide), ← hart,
    parseInt_intChars, parseInt_intChars]

/-! ## CSV sink (sink_csv.go)

The file system state seen by one `CSVSink`: the history file is either
missing (`os.IsNotExist`), present with its list of lines, or
unreadable for another reason (any other open error).  Write errors are
not modelled. -/

inductive FileState
  | missing
  | denied (lines : List (List Char))
  | present (lines : List (List Char))
deriving DecidableEq

/-- The read phase of `CSVSink.Scrobble`: parse every line as a raw CSV
row (csv.ReadAll); a missing file counts as zero rows; an open error
other than non-existence, or a malformed row, is a failure. -/
def rowsOfLines : List (List Char) → Option (List (List (List Char)))
  | [] => some []
  | line :: rest =>
    match decSplit ',' line [], rowsOfLines rest with
    | some row, some rows => some (row :: rows)
    | _, _ => none

def readRows : FileState → Option (List (List (List Char)))
  | .missing => some []
  | .denied _ => none
  | .present lines => rowsOfLines lines

/-- `CSVSink.Scrobble`: read and parse all existing lines, append the
new record, rewrite the file as a whole.  On a read failure the file is
left untouched and the error is returned (`false`). -/
def csvScrobble (st : FileState) (s : Scrobble) : FileState × Bool :=
  match readRows st with
  | none => (st, false)
  | some rows => (.present (writeAllLines (rows ++ [ToStringSlice s])), true)

/-- `CSVSink.NowPlaying`: does nothing and reports success. -/
def csvNowPlaying (st : FileState) (_ : Scrobble) : FileState × Bool :=
  (st, true)

/-- The scan loop of `CSVSink.GetScrobbles` over the reversed lines:
parse each line (hard failure on a malformed one), skip records before
`fromT`, stop at the first record after `toT`, stop when the limit is
full. -/
def getLoop (limit fromT toT : Int) : List (List Char) → List Scrobble → Option (List Scrobble)
  | [], acc => some acc
  | line :: rest, acc =>
    match ScrobbleFromCSV line with
    | none => none
    | some sc =>
      if sc.Timestamp < fromT then getLoop limit fromT toT rest acc
      else if toT < sc.Timestamp then some acc
      else if limit ≤ 0 ∨ (acc.length : Int) < limit then
        getLoop limit fromT toT rest (acc ++ [sc])
      else some acc

/-- `CSVSink.GetScrobbles`: open the file (errors propagate), read its
lines, reverse them, run the scan loop. -/
def csvGetScrobbles (st : FileState) (limit fromT toT : Int) : Option (List Scrobble) :=
  match st with
  | .present lines => getLoop limit fromT toT lines.reverse []
  | _ => none

/-- Rows obtained from a successful raw parse are never empty. -/
theorem rowsOfLines_rows_ne_nil :
    ∀ (lines : List (List Char)) (rows : List (List (List Char))),
      rowsOfLines lines = some rows → ∀ row ∈ rows, row ≠ [] := by
  intro lines
  induction lines with
  | nil =>
    intro rows h row hrow
    simp only [rowsOfLines] at h
    cases h
    simp at hrow
  | cons line rest ih =>
    intro rows h row hrow
    rw [rowsOfLines] at h
    cases hd : decSplit ',' line [] with
    | none => rw [hd] at h; cases h
    | some r =>
      cases hr : rowsOfLines rest with
      | none => rw [hd, hr] at h; cases h
      | some rs =>
        rw [hd, hr] at h
        cases h
        rcases List.mem_cons.mp hrow with rfl | hmem
        · exact decSplit_ne_nil ',' line [] row hd
        · exact ih rs hr row hmem

/-- Re-encoding rows that are all non-empty and parsing them back gives
the rows again. -/
theorem rowsOfLines_writeAllLines :
    ∀ (rows : List (List (List Char))), (∀ row ∈ rows, row ≠ []) →
      rowsOfLines (writeAllLines rows) = some rows := by
  intro rows
  induction rows with
  | nil => intro _; rfl
  | cons row rest ih =>
    intro hne
    obtain ⟨f, fs, hrow⟩ : ∃ f fs, row = f :: fs := by
      cases hr : row with
      | nil => exact absurd hr (hne row (List.mem_cons_self row rest))
      | cons f fs => exact ⟨f, fs, rfl⟩
    simp only [writeAllLines, List.map_cons, rowsOfLines]
    rw [hrow, decSplit_encJoin ',' (by decide)]
    have : rowsOfLines (writeAllLines rest) = some rest :=
      ih (fun r hr => hne r (List.mem_cons_of_mem row hr))
    rw [writeAllLines] at this
    rw [this, ← hrow]

theorem getLoop_cons_some (limit fromT toT : Int) (line : List Char)
    (rest : List (List Char)) (acc : List Scrobble) (sc : Scrobble)
    (hsc : ScrobbleFromCSV line = some sc) :
    getLoop limit fromT toT (line :: rest) acc
      = if sc.Timestamp < fromT then getLoop limit fromT toT rest acc
        else if toT < sc.Timestamp then some acc
        else if limit ≤ 0 ∨ (acc.length : Int) < limit then
          getLoop limit fromT toT rest (acc ++ [sc])
        else some acc := by
  rw [getLoop, hsc]

theorem getLoop_cons_none (limit fromT toT : Int) (line : List Char)
    (rest : List (List Char)) (acc : List Scrobble)
    (hsc : ScrobbleFromCSV line = none) :
    getLoop limit fromT toT (line :: rest) acc = none := by
  rw [getLoop, hsc]

/-- If every line of the scan parses, the loop succeeds and only ever
extends its accumulator. -/
theorem getLoop_extends (limit fromT toT : Int) :
    ∀ (lines : List (List Char)) (acc : List Scrobble),
      (∀ line ∈ lines, (ScrobbleFromCSV line).isSome) →
      ∃ l, getLoop limit fromT toT lines acc = some l ∧ ∃ suf, l = acc ++ suf := by
  intro lines
  induction lines with
  | nil =>
    intro acc _
    exact ⟨acc, rfl, [], by simp⟩
  | cons line rest ih =>
    intro acc hok
    have hline : (ScrobbleFromCSV line).isSome :=
      hok line (List.mem_cons_self line rest)
    rcases Option.isSome_iff_exists.mp hline with ⟨sc, hsc⟩
    have hrest : ∀ l ∈ rest, (ScrobbleFromCSV l).isSome :=
      fun l hl => hok l (List.mem_cons_of_mem line hl)
    rw [getLoop_cons_some limit fromT toT line rest acc sc hsc]
    by_cases h1 : sc.Timestamp < fromT
    · rw [if_pos h1]
      exact ih acc hrest
    · rw [if_neg h1]
      by_cases h2 : toT < sc.Timestamp
      · rw [if_pos h2]
        exact ⟨acc, rfl, [], by simp⟩
      · rw [if_neg h2]
        by_cases h3 : limit ≤ 0 ∨ (acc.length : Int) < limit
        · rw [if_pos h3]
          rcases ih (acc ++ [sc]) hrest with ⟨l, hl, suf, hsuf⟩
          exact ⟨l, hl, [sc] ++ suf, by simp [hsuf]⟩
        · rw [if_neg h3]
          exact ⟨acc, rfl, [], by simp⟩

/-- With no limit and no record beyond `toT`, a malformed line anywhere
in the scan makes the loop fail. -/
theorem getLoop_fails (limit fromT toT : Int) (hlim : limit ≤ 0) :
    ∀ (lines : List (List Char)) (acc : List Scrobble),
      (∀ line ∈ lines, ∀ sc, ScrobbleFromCSV line = some sc → sc.Timestamp ≤ toT) →
      (∃ line ∈ lines, ScrobbleFromCSV line = none) →
      getLoop limit fromT toT lines acc = none := by
  intro lines
  induction lines with
  | nil =>
    intro acc _ hbad
    rcases hbad with ⟨line, hmem, _⟩
    simp at hmem
  | cons line rest ih =>
    intro acc hto hbad
    cases hsc : ScrobbleFromCSV line with
    | none => exact getLoop_cons_none limit fromT toT line rest acc hsc
    | some sc =>
      rw [getLoop_cons_some limit fromT toT line rest acc sc hsc]
      have hle : sc.Timestamp ≤ toT :=
        hto line (List.mem_cons_self line rest) sc hsc
      have hbad' : ∃ l ∈ rest, ScrobbleFromCSV l = none := by
        rcases hbad with ⟨l, hmem, hl⟩
        rcases List.mem_cons.mp hmem with rfl | hmem'
        · rw [hl] at hsc; cases hsc
        · exact ⟨l, hmem', hl⟩
      have hto' : ∀ l ∈ rest, ∀ sc, ScrobbleFromCSV l = some sc → sc.Timestamp ≤ toT :=
        fun l hl => hto l (List.mem_cons_of_mem line hl)
      by_cases h1 : sc.Timestamp < fromT
      · rw [if_pos h1]
        exact ih acc hto' hbad'
      · rw [if_neg h1, if_neg (by omega : ¬toT < sc.Timestamp),
          if_pos (Or.inl hlim)]
        exact ih (acc ++ [sc]) hto' hbad'

/-- Lines that each decode as a scrobble also parse as raw rows, and
every resulting row rebuilds a scrobble. -/
theorem rowsOfLines_of_scrobbles :
    ∀ (lines : List (List Char)),
      (∀ line ∈ lines, (ScrobbleFromCSV line).isSome) →
      ∃ rows, rowsOfLines lines = some rows ∧
        ∀ row ∈ rows, (fieldsToScrobble row).isSome := by
  intro lines
  induction lines with
  | nil => intro _; exact ⟨[], rfl, by simp⟩
  | cons line rest ih =>
    intro h
    have hline := h line (List.mem_cons_self line rest)
    rw [ScrobbleFromCSV] at hline
    cases hd : decSplit ',' line [] with
    | none => rw [hd] at hline; simp at hline
    | some fields =>
      rw [hd] at hline
      rcases ih (fun l hl => h l (List.mem_cons_of_mem line hl)) with ⟨rows, hr, hall⟩
      refine ⟨fields :: rows, ?_, ?_⟩
      · rw [rowsOfLines, hd, hr]
      · intro row hrow
        rcases List.mem_cons.mp hrow with rfl | hmem
        · exact hline
        · exact hall row hmem

/-- Re-encoding a non-empty raw row and decoding the line gives the same
record as rebuilding the row directly. -/
theorem ScrobbleFromCSV_encJoin_row (row : List (List Char)) (hne : row ≠ []) :
    ScrobbleFromCSV (encJoin ',' row) = fieldsToScrobble row := by
  obtain ⟨f, fs, rfl⟩ : ∃ f fs, row = f :: fs := by
    cases hr : row with
    | nil => exact absurd hr hne
    | cons f fs => exact ⟨f, fs, rfl⟩
  rw [ScrobbleFromCSV, decSplit_encJoin ',' (by decide)]

/-- C9: `CSVSink.NowPlaying` reports success and leaves the history file
unchanged: a now-playing announcement is never persisted as history by
the file-backed destination. -/
theorem c9_now_playing_no_persist (st : FileState) (s : Scrobble) :
    csvNowPlaying st s = (st, true) := rfl

/-- C3: for a prior state whose lines all parse (a missing file counting
as zero lines), `CSVSink.Scrobble` appends the new record and rewrites
the file as a whole, so the resulting file holds exactly the prior
records in their original order followed by the new record, and the call
succeeds. -/
theorem c3_scrobble_appends (st : FileState) (rows : List (List (List Char)))
    (s : Scrobble) (h : readRows st = some rows) :
    csvScrobble st s
      = (.present (writeAllLines (rows ++ [ToStringSlice s])), true) ∧
    readRows (csvScrobble st s).1 = some (rows ++ [ToStringSlice s]) := by
  have h1 : csvScrobble st s
      = (.present (writeAllLines (rows ++ [ToStringSlice s])), true) := by
    rw [csvScrobble, h]
  refine ⟨h1, ?_⟩
  rw [h1]
  show rowsOfLines (writeAllLines (rows ++ [ToStringSlice s]))
    = some (rows ++ [ToStringSlice s])
  apply rowsOfLines_writeAllLines
  intro row hrow
  rcases List.mem_append.mp hrow with hmem | hmem
  · cases st with
    | missing =>
      simp only [readRows] at h
      cases h
      simp at hmem
    | denied lines => simp [readRows] at h
    | present lines => exact rowsOfLines_rows_ne_nil lines rows h row hmem
  · simp only [List.mem_singleton] at hmem
    subst hmem
    simp [ToStringSlice]

def sW : Scrobble := ⟨[['a']], ['t'], ['b'], 5, 7⟩

theorem c3_witness :
    csvScrobble .missing sW
      = (.present (writeAllLines ([] ++ [ToStringSlice sW])), true) ∧
    readRows (csvScrobble .missing sW).1 = some ([] ++ [ToStringSlice sW]) :=
  c3_scrobble_appends .missing [] sW rfl

/-- C10: on an existing file whose contents fail to parse, or whose open
fails for a reason other than non-existence, `CSVSink.Scrobble` returns
the error before creating or truncating the file, leaving the state
unchanged. -/
theorem c10_read_error_no_write (st : FileState) (s : Scrobble)
    (h : (∃ lines, st = .denied lines) ∨
         (∃ lines, st = .present lines ∧ rowsOfLines lines = none)) :
    csvScrobble st s = (st, false) := by
  rcases h with ⟨lines, rfl⟩ | ⟨lines, rfl, hbad⟩
  · rfl
  · simp [csvScrobble, readRows, hbad]

theorem c10_witness :
    csvScrobble (.denied [['x']]) sW = (.denied [['x']], false) :=
  c10_read_error_no_write (.denied [['x']]) sW (Or.inl ⟨[['x']], rfl⟩)

def recAt (t : Int) : Scrobble := ⟨[['a']], ['t'], ['b'], 0, t⟩

def linesC1 : List (List Char) :=
  writeAllLines [ToStringSlice (recAt 1), ToStringSlice (recAt 2), ToStringSlice (recAt 3)]

/-- C1: evaluation at the failing input.  A history holding records with
timestamps 1, 2, 3 (in file order), queried with limit 0 and window
[1, 2], returns no records at all, although the stored record with
timestamp 2 lies within the window (and decodes fine): the scan, which
runs most recent first, stops at the first record after `to` and
discards every older in-range record. -/
theorem c1_window_scan_bug :
    csvGetScrobbles (.present linesC1) 0 1 2 = some [] ∧
    linesC1.get? 1 = some (scrobbleLine (recAt 2)) ∧
    ScrobbleFromCSV (scrobbleLine (recAt 2)) = some (recAt 2) ∧
    1 ≤ (recAt 2).Timestamp ∧ (recAt 2).Timestamp ≤ 2 := by decide

def badLine : List Char := ['x']

def linesC4 : List (List Char) :=
  [badLine, scrobbleLine (recAt 10), scrobbleLine (recAt 20)]

/-- C4 counterexample: a history file that contains a malformed line can
still make `GetScrobbles` succeed with records: with limit 1 the scan
stops as soon as the limit is full, before ever decoding the malformed
line. -/
theorem c4_counterexample :
    ScrobbleFromCSV badLine = none ∧ badLine ∈ linesC4 ∧
    csvGetScrobbles (.present linesC4) 1 0 100 = some [recAt 20] := by decide

/-- C4 (amended): a malformed line makes `GetScrobbles` fail hard —
returning an error and no records — whenever the scan reaches it; in
particular whenever the limit is non-positive and no well-formed record
lies after `to` (a malformed line beyond an early stopping point is
never decoded). -/
theorem c4_malformed_hard_failure (lines : List (List Char)) (limit fromT toT : Int)
    (hlim : limit ≤ 0)
    (hto : ∀ line ∈ lines, ∀ sc, ScrobbleFromCSV line = some sc → sc.Timestamp ≤ toT)
    (hbad : ∃ line ∈ lines, ScrobbleFromCSV line = none) :
    csvGetScrobbles (.present lines) limit fromT toT = none := by
  show getLoop limit fromT toT lines.reverse [] = none
  apply getLoop_fails limit fromT toT hlim
  · intro line hl
    exact hto line (List.mem_reverse.mp hl)
  · rcases hbad with ⟨line, hm, hnone⟩
    exact ⟨line, List.mem_reverse.mpr hm, hnone⟩

theorem c4_witness : csvGetScrobbles (.present [badLine]) 0 0 100 = none :=
  c4_malformed_hard_failure [badLine] 0 0 100 (by decide)
    (by
      intro line hl sc hsc
      have hline : line = badLine := by simpa using hl
      rw [hline, show ScrobbleFromCSV badLine = none from by decide] at hsc
      cases hsc)
    ⟨badLine, by simp, by decide⟩

def exNeg : Scrobble := ⟨[['X', 'é']], ['t'], ['a'], 0, -1⟩

def exNoArtists : Scrobble := ⟨[], ['t'], ['a'], 0, 5⟩

/-- C2 counterexample: the round trip fails as universally stated.  A
record whose timestamp lies before the epoch is filtered out entirely by
the `from` bound of the fetch (the write succeeds, the fetch over
[epoch, far-future] returns nothing); and a record with an empty artist
list comes back with a different artist list (one empty artist name),
since the joined-artist-list field cannot distinguish the two. -/
theorem c2_counterexample :
    ((csvScrobble .missing exNeg).2 = true ∧
      csvGetScrobbles (csvScrobble .missing exNeg).1 0 0 1000000000000 = some []) ∧
    ((csvScrobble .missing exNoArtists).2 = true ∧
      csvGetScrobbles (csvScrobble .missing exNoArtists).1 0 0 1000000000000
        = some [⟨[[]], ['t'], ['a'], 0, 5⟩] ∧
      (⟨[[]], ['t'], ['a'], 0, 5⟩ : Scrobble) ≠ exNoArtists) := by decide

/-- C2 (amended): for every scrobble with at least one artist (Unicode
artist names included) whose timestamp lies in [epoch, far-future],
writing it with `CSVSink.Scrobble` to a history whose lines all decode
(in particular a missing file) and fetching with limit 0 over
[epoch, far-future] succeeds and returns the written record — equal
field-for-field — as the first (most recent) entry. -/
theorem c2_round_trip (st : FileState) (s : Scrobble) (toT : Int)
    (hart : s.Artists ≠ [])
    (h0 : 0 ≤ s.Timestamp) (hT : s.Timestamp ≤ toT)
    (hst : st = .missing ∨
           ∃ lines, st = .present lines ∧
             ∀ line ∈ lines, (ScrobbleFromCSV line).isSome) :
    (csvScrobble st s).2 = true ∧
    ∃ l, csvGetScrobbles (csvScrobble st s).1 0 0 toT = some l ∧
      l.head? = some s := by
  obtain ⟨rows, hrows, hfields, hne⟩ :
      ∃ rows, readRows st = some rows ∧
        (∀ row ∈ rows, (fieldsToScrobble row).isSome) ∧
        (∀ row ∈ rows, row ≠ []) := by
    rcases hst with rfl | ⟨lines, rfl, hall⟩
    · exact ⟨[], rfl, by simp, by simp⟩
    · rcases rowsOfLines_of_scrobbles lines hall with ⟨rows, hr, hf⟩
      exact ⟨rows, hr, hf, rowsOfLines_rows_ne_nil lines rows hr⟩
  have h1 : csvScrobble st s
      = (.present (writeAllLines (rows ++ [ToStringSlice s])), true) := by
    rw [csvScrobble, hrows]
  rw [h1]
  refine ⟨rfl, ?_⟩
  have h2 : writeAllLines (rows ++ [ToStringSlice s])
      = writeAllLines rows ++ [scrobbleLine s] := by
    simp [writeAllLines, scrobbleLine]
  have h3 : (writeAllLines (rows ++ [ToStringSlice s])).reverse
      = scrobbleLine s :: (writeAllLines rows).reverse := by
    rw [h2]
    simp
  show ∃ l, getLoop 0 0 toT (writeAllLines (rows ++ [ToStringSlice s])).reverse []
      = some l ∧ l.head? = some s
  rw [h3, getLoop_cons_some 0 0 toT _ _ [] s (ScrobbleFromCSV_scrobbleLine s hart)]
  rw [if_neg (by omega : ¬s.Timestamp < 0), if_neg (by omega : ¬toT < s.Timestamp),
    if_pos (Or.inl le_rfl)]
  have hok : ∀ line ∈ (writeAllLines rows).reverse, (ScrobbleFromCSV line).isSome := by
    intro line hl
    have hl' : line ∈ writeAllLines rows := List.mem_reverse.mp hl
    rcases List.mem_map.mp hl' with ⟨row, hrow, rfl⟩
    rw [ScrobbleFromCSV_encJoin_row row (hne row hrow)]
    exact hfields row hrow
  rcases getLoop_extends 0 0 toT (writeAllLines rows).reverse ([] ++ [s]) hok
    with ⟨l, hl, suf, hsuf⟩
  refine ⟨l, hl, ?_⟩
  rw [hsuf]
  simp

theorem c2_witness :
    (csvScrobble .missing sW).2 = true ∧
    ∃ l, csvGetScrobbles (csvScrobble .missing sW).1 0 0 1000 = some l ∧
      l.head? = some sW :=
  c2_round_trip .missing sW 1000 (by decide) (by decide) (by decide) (Or.inl rfl)

/-! ## last.fm sink (sink_lastfm.go)

The request parameter maps built by `LastFmSink.NowPlaying` and
`LastFmSink.Scrobble` (the `lastfm.P` literals), and the pagination loop
of `LastFmSink.GetScrobbles`.  `JoinArtists` is modelled from the spec
("artist (joined)") as a comma-space join, matching the comma-space
split used by `GetScrobbles` in the source.  Go's
`int(scrobble.Duration.Seconds())` truncates toward zero; we model it as
`Int.div` of nanoseconds by 10^9 (float rounding out of scope). -/

/-- Modelled from the spec: join the artist list with a comma and a
space. -/
def JoinArtists (s : Scrobble) : List Char :=
  List.intercalate [',', ' '] s.Artists

/-- Duration of a scrobble in whole seconds (truncated toward zero). -/
def durationSeconds (s : Scrobble) : Int :=
  Int.tdiv s.Duration 1000000000

inductive PVal
  | str (v : List Char)
  | int (v : Int)
deriving DecidableEq

/-- The parameter map of `LastFmSink.NowPlaying`. -/
def lastFmNowPlayingParams (sessionKey : List Char) (s : Scrobble) :
    List (List Char × PVal) :=
  [("artist".toList, .str (JoinArtists s)),
   ("track".toList, .str s.Track),
   ("album".toList, .str s.Album),
   ("duration".toList, .int (max (durationSeconds s) 30)),
   ("sk".toList, .str sessionKey)]

/-- The parameter map of `LastFmSink.Scrobble`. -/
def lastFmScrobbleParams (sessionKey : List Char) (s : Scrobble) :
    List (List Char × PVal) :=
  [("artist".toList, .str (JoinArtists s)),
   ("track".toList, .str s.Track),
   ("album".toList, .str s.Album),
   ("duration".toList, .int (max (durationSeconds s) 30)),
   ("timestamp".toList, .int s.Timestamp),
   ("sk".toList, .str sessionKey)]

/-- C5: both last.fm requests carry the joined artist list, the track,
the album, and a duration parameter equal to the scrobble's duration in
whole seconds floored at a minimum of 30 (hence always at least 30); the
scrobble request additionally carries the Unix timestamp, which the
now-playing request does not. -/
theorem c5_lastfm_request_params (sessionKey : List Char) (s : Scrobble) :
    List.lookup "duration".toList (lastFmNowPlayingParams sessionKey s)
      = some (.int (max (durationSeconds s) 30)) ∧
    List.lookup "duration".toList (lastFmScrobbleParams sessionKey s)
      = some (.int (max (durationSeconds s) 30)) ∧
    30 ≤ max (durationSeconds s) 30 ∧
    List.lookup "artist".toList (lastFmNowPlayingParams sessionKey s)
      = some (.str (JoinArtists s)) ∧
    List.lookup "artist".toList (lastFmScrobbleParams sessionKey s)
      = some (.str (JoinArtists s)) ∧
    List.lookup "track".toList (lastFmNowPlayingParams sessionKey s)
      = some (.str s.Track) ∧
    List.lookup "track".toList (lastFmScrobbleParams sessionKey s)
      = some (.str s.Track) ∧
    List.lookup "album".toList (lastFmNowPlayingParams sessionKey s)
      = some (.str s.Album) ∧
    List.lookup "album".toList (lastFmScrobbleParams sessionKey s)
      = some (.str s.Album) ∧
    List.lookup "timestamp".toList (lastFmScrobbleParams sessionKey s)
      = some (.int s.Timestamp) ∧
    List.lookup "timestamp".toList (lastFmNowPlayingParams sessionKey s)
      = none := by
  refine ⟨rfl, rfl, le_max_right _ _, rfl, rfl, rfl, rfl, rfl, rfl, rfl, rfl⟩

/-- A track of one page of the recent-tracks response. -/
structure TrackInfo where
  artistName : List Char
  name : List Char
  albumName : List Char
  dateUTS : Int
deriving DecidableEq

/-- One page of the recent-tracks response. -/
structure RecentPage where
  totalPages : Int
  tracks : List TrackInfo
deriving DecidableEq

/-- Split on the two-character separator comma-space (strings.Split with
a comma-space separator, as used on the artist name). -/
def splitCS : List Char → List Char → List (List Char)
  | [], acc => [acc.reverse]
  | [c], acc => [(c :: acc).reverse]
  | c :: c2 :: rest, acc =>
    if c = ',' ∧ c2 = ' ' then acc.reverse :: splitCS rest []
    else splitCS (c2 :: rest) (c :: acc)

/-- Conversion of one response track to a Scrobble, as in
`LastFmSink.GetScrobbles` (duration zero, comma-space artist split). -/
def trackToScrobble (t : TrackInfo) : Scrobble :=
  ⟨splitCS t.artistName [], t.name, t.albumName, 0, t.dateUTS⟩

/-- The inner loop over one page's tracks: append while the limit allows
it, otherwise break out of the outer loop (second component `true`). -/
def addTracks (limit : Int) : List TrackInfo → List Scrobble → List Scrobble × Bool
  | [], acc => (acc, false)
  | t :: rest, acc =>
    if limit ≤ 0 ∨ (acc.length : Int) < limit then
      addTracks limit rest (acc ++ [trackToScrobble t])
    else (acc, true)

/-- The pagination loop of `LastFmSink.GetScrobbles`: fetch the current
page (a request beyond the finite response sequence fails), collect its
tracks, stop when the limit is full or the current page reaches the
reported total pages, else advance to the next page.  Totality of this
definition is the termination claim: the measure strictly decreases
because a fetched page index is within the response sequence. -/
def lfLoop (limit : Int) (pages : List RecentPage) :
    Nat → List Scrobble → Option (List Scrobble)
  | currentPage, acc =>
    if hlt : currentPage - 1 < pages.length then
      match addTracks limit (pages[currentPage - 1]).tracks acc with
      | (acc2, true) => some acc2
      | (acc2, false) =>
        if (currentPage : Int) ≥ (pages[currentPage - 1]).totalPages then some acc2
        else lfLoop limit pages (currentPage + 1) acc2
    else none
  termination_by currentPage _ => pages.length + 1 - currentPage
  decreasing_by omega

/-- `LastFmSink.GetScrobbles` against a finite sequence of page
responses. -/
def lastFmGetScrobbles (limit : Int) (pages : List RecentPage) :
    Option (List Scrobble) :=
  lfLoop limit pages 1 []

theorem addTracks_le (limit : Int) (hpos : 0 < limit) :
    ∀ (ts : List TrackInfo) (acc : List Scrobble),
      (acc.length : Int) ≤ limit →
      (((addTracks limit ts acc).1).length : Int) ≤ limit := by
  intro ts
  induction ts with
  | nil => intro acc h; exact h
  | cons t rest ih =>
    intro acc h
    rw [addTracks]
    by_cases hc : limit ≤ 0 ∨ (acc.length : Int) < limit
    · rw [if_pos hc]
      apply ih
      have hlt : (acc.length : Int) < limit := by omega
      simp only [List.length_append, List.length_singleton]
      push_cast
      omega
    · rw [if_neg hc]
      exact h

theorem lfLoop_le (limit : Int) (hpos : 0 < limit) (pages : List RecentPage) :
    ∀ (n cp : Nat) (acc : List Scrobble), pages.length + 1 - cp ≤ n →
      (acc.length : Int) ≤ limit →
      ∀ res, lfLoop limit pages cp acc = some res → (res.length : Int) ≤ limit := by
  intro n
  induction n with
  | zero =>
    intro cp acc hn hacc res hres
    rw [lfLoop] at hres
    rw [dif_neg (by omega : ¬(cp - 1 < pages.length))] at hres
    cases hres
  | succ n ih =>
    intro cp acc hn hacc res hres
    rw [lfLoop] at hres
    by_cases hlt : cp - 1 < pages.length
    · rw [dif_pos hlt] at hres
      have hacc2 := addTracks_le limit hpos (pages[cp - 1]).tracks acc hacc
      cases hadd : addTracks limit (pages[cp - 1]).tracks acc with
      | mk acc2 b =>
        rw [hadd] at hres hacc2
        cases b with
        | true =>
          simp only at hres
          cases hres
          exact hacc2
        | false =>
          simp only at hres
          by_cases hge : (cp : Int) ≥ (pages[cp - 1]).totalPages
          · rw [if_pos hge] at hres
            cases hres
            exact hacc2
          · rw [if_neg hge] at hres
            exact ih (cp + 1) acc2 (by omega) hacc2 res hres
    · rw [dif_neg hlt] at hres
      cases hres

/-- C7: the pagination of `LastFmSink.GetScrobbles` over any finite
sequence of page responses terminates (the loop is a total function:
its recursion measure is the number of pages left), and with a positive
limit the returned sequence holds at most `limit` entries. -/
theorem c7_pagination_limit (limit : Int) (pages : List RecentPage)
    (hpos : 0 < limit) (res : List Scrobble)
    (hres : lastFmGetScrobbles limit pages = some res) :
    (res.length : Int) ≤ limit := by
  exact lfLoop_le limit hpos pages (pages.length + 1) 1 [] (by omega) (by simp; exact le_of_lt hpos) res hres

def trackC7 : TrackInfo := ⟨['A'], ['n'], ['b'], 7⟩

def pagesC7 : List RecentPage := [⟨1, [trackC7]⟩]

def resC7 : List Scrobble := [trackToScrobble trackC7]

theorem c7_witness : ((resC7).length : Int) ≤ 1 :=
  c7_pagination_limit 1 pagesC7 (by decide) resC7 (by
    rw [lastFmGetScrobbles, lfLoop]
    rw [dif_pos (by simp [pagesC7] : 1 - 1 < pagesC7.length)]
    simp [pagesC7, addTracks, resC7])

/-! ## Regex-rule parsing (config.go) -/

structure RegexReplace where
  Match : List Char
  Replace : List Char
  Artist : Bool
  Track : Bool
  Album : Bool
deriving DecidableEq

structure ParsedRegexReplace (R : Type) where
  Match : R
  Replace : List Char
  Artist : Bool
  Track : Bool
  Album : Bool

/-- `Config.ParseRegexes`: compile each rule's match pattern; a rule
whose pattern fails to compile is skipped (the loop continues),
otherwise the compiled rule is appended with its replacement and field
flags.  The regex engine (`regexp.Compile`) is abstracted as the
`compile` argument. -/
def ParseRegexes {R : Type} (compile : List Char → Option R) :
    List RegexReplace → List (ParsedRegexReplace R)
  | [] => []
  | r :: rest =>
    match compile r.Match with
    | none => ParseRegexes compile rest
    | some m =>
      ⟨m, r.Replace, r.Artist, r.Track, r.Album⟩ :: ParseRegexes compile rest

/-- C6: `Config.ParseRegexes` returns exactly the rules whose match
patterns compile, in configured order, with replacement and target-field
flags preserved; a rule whose pattern fails to compile is skipped
entirely and does not abort parsing of the remaining rules. -/
theorem c6_parse_regexes_skips {R : Type} (compile : List Char → Option R)
    (regexes : List RegexReplace) :
    (ParseRegexes compile regexes).map
        (fun p => (p.Replace, p.Artist, p.Track, p.Album))
      = (regexes.filter fun r => (compile r.Match).isSome).map
          (fun r => (r.Replace, r.Artist, r.Track, r.Album)) ∧
    (ParseRegexes compile regexes).map (fun p => some p.Match)
      = (regexes.filter fun r => (compile r.Match).isSome).map
          (fun r => compile r.Match) := by
  induction regexes with
  | nil => exact ⟨rfl, rfl⟩
  | cons r rest ih =>
    cases hc : compile r.Match with
    | none =>
      rw [ParseRegexes, hc]
      simp only [List.filter_cons, hc, Option.isSome_none, Bool.false_eq_true,
        if_false, ite_false]
      exact ih
    | some m =>
      rw [ParseRegexes, hc]
      simp only [List.filter_cons, hc, Option.isSome_some, if_true, ite_true,
        List.map_cons]
      exact ⟨by rw [ih.1], by rw [ih.2]⟩

/-! ## Playback tracker

Modelled from the spec: the tracker source (the playback-session state
machine of spec section 4.2) is not among the provided sources; the
definitions below follow the spec's transition logic.  A session records
the candidate identity, the accumulated play time, the play-start
timestamp, and the emitted flags; a tick consumes an optional snapshot
together with the elapsed delta since the previous tick. -/

structure TrackIdentity where
  Artists : List (List Char)
  Track : List Char
  Album : List Char
deriving DecidableEq

structure Snapshot where
  ident : TrackIdentity
  totalDuration : Option Int
  position : Int
  playing : Bool
deriving DecidableEq

structure Session where
  ident : TrackIdentity
  accum : Int
  startTs : Int
  npSent : Bool
  scrobbled : Bool
deriving DecidableEq

structure TrackerPolicy where
  minDuration : Int
  minPercent : Int
  shortFloor : Int
deriving DecidableEq

inductive TrackerEvent
  | nowPlaying (id : TrackIdentity)
  | scrobbleEv (id : TrackIdentity) (startTs accum : Int)
deriving DecidableEq

/-- Modelled from the spec (section 4.2, step 3): the scrobble threshold
is the minimum of the absolute minimum duration and the percentage of
the total track duration, when the total is known and exceeds the
short-track floor; otherwise the absolute minimum duration alone. -/
def scrobbleThreshold (p : TrackerPolicy) (total : Option Int) : Int :=
  match total with
  | some d =>
    if p.shortFloor < d then min p.minDuration (d * p.minPercent / 100)
    else p.minDuration
  | none => p.minDuration

/-- Modelled from the spec (step 1): create a session for a playing,
transformer-approved snapshot, emitting now-playing immediately; the
accumulated time is seeded from the reported position (clamped to be
non-negative). -/
def startSession (allowed : TrackIdentity → Bool) (sn : Snapshot) (now : Int) :
    Option Session × List TrackerEvent :=
  if sn.playing = true ∧ allowed sn.ident = true then
    (some ⟨sn.ident, max sn.position 0, now, true, false⟩,
     [TrackerEvent.nowPlaying sn.ident])
  else (none, [])

/-- Modelled from the spec (step 3): while not yet scrobbled, crossing
the threshold emits exactly one scrobble event and marks the session
scrobbled. -/
def checkThreshold (p : TrackerPolicy) (sess : Session) (total : Option Int) :
    Session × List TrackerEvent :=
  if sess.scrobbled = false ∧ scrobbleThreshold p total ≤ sess.accum then
    ({ sess with scrobbled := true },
     [TrackerEvent.scrobbleEv sess.ident sess.startTs sess.accum])
  else (sess, [])

/-- Spec step 2: while playing, advance the accumulated time by the
elapsed delta (clamped to be non-negative); while paused it is
unchanged. -/
def advanceAccum (sess : Session) (sn : Snapshot) (delta : Int) : Session :=
  if sn.playing = true then { sess with accum := sess.accum + max delta 0 }
  else sess

/-- Fresh evaluation of a snapshot (spec step 1, also reached through
step 4 within the same tick). -/
def tickFresh (p : TrackerPolicy) (allowed : TrackIdentity → Bool)
    (sn : Snapshot) (now : Int) : Option Session × List TrackerEvent :=
  match startSession allowed sn now with
  | (some sess, evs) =>
    (some (checkThreshold p sess sn.totalDuration).1,
     evs ++ (checkThreshold p sess sn.totalDuration).2)
  | (none, evs) => (none, evs)

/-- Modelled from the spec (section 4.2): one tick of the tracker. -/
def tick (p : TrackerPolicy) (allowed : TrackIdentity → Bool)
    (st : Option Session) (snap : Option Snapshot) (delta now : Int) :
    Option Session × List TrackerEvent :=
  match snap with
  | none => (none, [])
  | some sn =>
    match st with
    | none => tickFresh p allowed sn now
    | some sess =>
      if sess.ident = sn.ident then
        (some (checkThreshold p (advanceAccum sess sn delta) sn.totalDuration).1,
         (checkThreshold p (advanceAccum sess sn delta) sn.totalDuration).2)
      else tickFresh p allowed sn now

structure TickInput where
  snap : Option Snapshot
  delta : Int
  now : Int
deriving DecidableEq

/-- Run a list of ticks, collecting emitted events in order. -/
def runTicks (p : TrackerPolicy) (allowed : TrackIdentity → Bool)
    (st : Option Session) : List TickInput → Option Session × List TrackerEvent
  | [] => (st, [])
  | i :: rest =>
    match tick p allowed st i.snap i.delta i.now with
    | (st1, evs) =>
      match runTicks p allowed st1 rest with
      | (st2, evs2) => (st2, evs ++ evs2)

def isScrobbleEvent : TrackerEvent → Bool
  | .scrobbleEv _ _ _ => true
  | .nowPlaying _ => false

def countScrobbleEvents (evs : List TrackerEvent) : Nat :=
  evs.countP isScrobbleEvent

/-- One tick on a matching identity: the session survives, keeps its
identity, the scrobbled flag is monotone, and a scrobble event is
emitted exactly when the still-unscrobbled session crosses the
threshold — never once the flag is set. -/
theorem tick_same_ident (p : TrackerPolicy) (allowed : TrackIdentity → Bool)
    (sess : Session) (sn : Snapshot) (delta now : Int)
    (hid : sn.ident = sess.ident) :
    ∃ sess1 evs, tick p allowed (some sess) (some sn) delta now = (some sess1, evs) ∧
      sess1.ident = sess.ident ∧
      (sess.scrobbled = true → sess1.scrobbled = true ∧ countScrobbleEvents evs = 0) ∧
      (sess.scrobbled = false →
        countScrobbleEvents evs = (if sess1.scrobbled = true then 1 else 0)) := by
  have hident : (advanceAccum sess sn delta).ident = sess.ident := by
    rw [advanceAccum]
    by_cases hp : sn.playing = true
    · rw [if_pos hp]
    · rw [if_neg hp]
  have hflag : (advanceAccum sess sn delta).scrobbled = sess.scrobbled := by
    rw [advanceAccum]
    by_cases hp : sn.playing = true
    · rw [if_pos hp]
    · rw [if_neg hp]
  rw [tick, if_pos hid.symm]
  set s1 := advanceAccum sess sn delta with hs1
  rw [checkThreshold]
  by_cases hcross : s1.scrobbled = false ∧
      scrobbleThreshold p sn.totalDuration ≤ s1.accum
  · rw [if_pos hcross]
    refine ⟨_, _, rfl, hident, ?_, ?_⟩
    · intro htrue
      rw [hflag] at hcross
      rw [hcross.1] at htrue
      cases htrue
    · intro _
      simp [countScrobbleEvents, isScrobbleEvent]
  · rw [if_neg hcross]
    refine ⟨s1, [], rfl, hident, ?_, ?_⟩
    · intro htrue
      exact ⟨hflag.trans htrue, rfl⟩
    · intro hfalse
      have h1 : s1.scrobbled = false := hflag.trans hfalse
      rw [if_neg (by rw [h1]; intro h; cases h)]
      rfl

/-- C8: over any run of ticks that keep reporting the active session's
identity, a scrobble event is emitted at most once for that session:
never again once the session is marked scrobbled, and exactly once in
total when the accumulated play time crosses the threshold during the
run (the final flag is set exactly when the one event was emitted). -/
theorem c8_scrobble_at_most_once (p : TrackerPolicy)
    (allowed : TrackIdentity → Bool) (sess : Session) (inputs : List TickInput)
    (hsame : ∀ i ∈ inputs, ∃ sn, i.snap = some sn ∧ sn.ident = sess.ident) :
    ∃ sess2, (runTicks p allowed (some sess) inputs).1 = some sess2 ∧
      sess2.ident = sess.ident ∧
      countScrobbleEvents (runTicks p allowed (some sess) inputs).2 ≤ 1 ∧
      (sess.scrobbled = true →
        sess2.scrobbled = true ∧
        countScrobbleEvents (runTicks p allowed (some sess) inputs).2 = 0) ∧
      (sess.scrobbled = false →
        countScrobbleEvents (runTicks p allowed (some sess) inputs).2
          = (if sess2.scrobbled = true then 1 else 0)) := by
  induction inputs generalizing sess with
  | nil =>
    refine ⟨sess, rfl, rfl, ?_, ?_, ?_⟩
    · simp [runTicks, countScrobbleEvents]
    · intro h
      exact ⟨h, by simp [runTicks, countScrobbleEvents]⟩
    · intro h
      rw [if_neg (by rw [h]; intro hc; cases hc)]
      simp [runTicks, countScrobbleEvents]
  | cons i rest ih =>
    rcases hsame i (List.mem_cons_self i rest) with ⟨sn, hsnap, hident⟩
    rcases tick_same_ident p allowed sess sn i.delta i.now hident
      with ⟨sess1, evs, htick, hid1, himpT, himpF⟩
    have hsame2 : ∀ j ∈ rest, ∃ sn2, j.snap = some sn2 ∧ sn2.ident = sess1.ident := by
      intro j hj
      rcases hsame j (List.mem_cons_of_mem i hj) with ⟨sn2, hsn2, hident2⟩
      exact ⟨sn2, hsn2, by rw [hident2, hid1]⟩
    rcases ih sess1 hsame2 with ⟨sess2, hrun, hid2, hle, himpT2, himpF2⟩
    have hstep : runTicks p allowed (some sess) (i :: rest)
        = ((runTicks p allowed (some sess1) rest).1,
           evs ++ (runTicks p allowed (some sess1) rest).2) := by
      rw [runTicks, hsnap, htick]
    have hcount : countScrobbleEvents (runTicks p allowed (some sess) (i :: rest)).2
        = countScrobbleEvents evs
          + countScrobbleEvents (runTicks p allowed (some sess1) rest).2 := by
      rw [hstep]
      simp [countScrobbleEvents, List.countP_append]
    refine ⟨sess2, by rw [hstep]; exact hrun, hid2.trans hid1, ?_, ?_, ?_⟩
    · rw [hcount]
      cases hsc : sess.scrobbled with
      | true =>
        rcases himpT hsc with ⟨h1, h2⟩
        rcases himpT2 h1 with ⟨_, h3⟩
        omega
      | false =>
        have h1 := himpF hsc
        cases hs1 : sess1.scrobbled with
        | true =>
          rw [hs1] at h1
          simp only [if_true] at h1
          rcases himpT2 hs1 with ⟨_, h3⟩
          omega
        | false =>
          rw [hs1] at h1
          simp only [Bool.false_eq_true, if_false] at h1
          have h3 := himpF2 hs1
          cases hs2 : sess2.scrobbled with
          | true => rw [hs2] at h3; simp only [if_true] at h3; omega
          | false =>
            rw [hs2] at h3
            simp only [Bool.false_eq_true, if_false] at h3
            omega
    · intro hsc
      rcases himpT hsc with ⟨h1, h2⟩
      rcases himpT2 h1 with ⟨h4, h3⟩
      exact ⟨h4, by rw [hcount]; omega⟩
    · intro hsc
      have h1 := himpF hsc
      rw [hcount]
      cases hs1 : sess1.scrobbled with
      | true =>
        rw [hs1] at h1
        simp only [if_true] at h1
        rcases himpT2 hs1 with ⟨h4, h3⟩
        rw [if_pos h4]
        omega
      | false =>
        rw [hs1] at h1
        simp only [Bool.false_eq_true, if_false] at h1
        have h3 := himpF2 hs1
        omega

def identW : TrackIdentity := ⟨[['a']], ['t'], ['b']⟩

def snW : Snapshot := ⟨identW, some 400, 0, true⟩

def pW : TrackerPolicy := ⟨240, 50, 30⟩

def sessW : Session := ⟨identW, 190, 0, true, false⟩

def inputsW : List TickInput := [⟨some snW, 20, 1⟩, ⟨some snW, 5, 2⟩]

def allowAll : TrackIdentity → Bool := fun _ => true

theorem c8_witness :
    ∃ sess2, (runTicks pW allowAll (some sessW) inputsW).1 = some sess2 ∧
      sess2.ident = sessW.ident ∧
      countScrobbleEvents (runTicks pW allowAll (some sessW) inputsW).2 ≤ 1 ∧
      (sessW.scrobbled = true →
        sess2.scrobbled = true ∧
        countScrobbleEvents (runTicks pW allowAll (some sessW) inputsW).2 = 0) ∧
      (sessW.scrobbled = false →
        countScrobbleEvents (runTicks pW allowAll (some sessW) inputsW).2
          = (if sess2.scrobbled = true then 1 else 0)) :=
  c8_scrobble_at_most_once pW allowAll sessW inputsW (by
    intro i hi
    rcases List.mem_cons.mp hi with rfl | hi2
    · exact ⟨snW, rfl, rfl⟩
    · rcases List.mem_cons.mp hi2 with rfl | hi3
      · exact ⟨snW, rfl, rfl⟩
      · simp at hi3)
